import Mathlib

/-!
Shallow embedding of the GitSwitch sources: the account store
(`src/config.rs`), the SSH config block editor (`src/ssh.rs`) and the
profile-manager orchestration (`src/commands.rs`).

File contents are modelled as `List Char` (Rust `String`s are UTF-8 text and
every operation the code performs is character-based).  Rust's
`str::lines()`, `str::trim()`, `str::split(c)` and friends are re-implemented
below on `List Char`; Unicode whitespace / case mapping is modelled by Lean's
ASCII `Char.isWhitespace` / `Char.toLower`, which agree with Rust on all the
ASCII data these programs handle.
-/

namespace GitSwitch

/-- Split a character list at every newline character, keeping empty pieces,
as Rust's `str::split('\n')` does (`"a\nb\n"` gives `["a", "b", ""]`). -/
def splitNl : List Char → List (List Char)
  | [] => [[]]
  | c :: rest =>
    match splitNl rest with
    | [] => [[c]]
    | l :: ls => if c = '\n' then [] :: l :: ls else (c :: l) :: ls

/-- Remove one trailing carriage return, as the `\r` handling of Rust's
`str::lines()` does on a line that was terminated by `\n`. -/
def stripCR (l : List Char) : List Char :=
  match l.reverse with
  | c :: t => if c = '\r' then t.reverse else l
  | [] => l

/-- Finish Rust's `str::lines()`: every piece except the last was terminated
by `\n`, so it gets its trailing `\r` stripped; a final empty piece (the text
ended in `\n`) is dropped; a non-empty final piece is kept verbatim. -/
def linesFinish : List (List Char) → List (List Char)
  | [] => []
  | [l] => if l.isEmpty then [] else [l]
  | l :: ls => stripCR l :: linesFinish ls

/-- Rust's `str::lines()` on a character list. -/
def rustLines (s : List Char) : List (List Char) :=
  linesFinish (splitNl s)

/-- Rust's `str::trim()`: drop leading and trailing whitespace. -/
def trim (l : List Char) : List Char :=
  ((l.dropWhile Char.isWhitespace).reverse.dropWhile Char.isWhitespace).reverse

/-- Rust's `str::split('|')`, keeping empty pieces. -/
def splitBar : List Char → List (List Char)
  | [] => [[]]
  | c :: rest =>
    match splitBar rest with
    | [] => [[c]]
    | l :: ls => if c = '|' then [] :: l :: ls else (c :: l) :: ls

/-- Join lines back into text, one `'\n'` after each line.  This is the shape
of the output buffer built by `remove_ssh_config_entry`, which executes
`new_content.push_str(line); new_content.push('\n')` per kept line. -/
def unlines : List (List Char) → List Char
  | [] => []
  | l :: ls => l ++ '\n' :: unlines ls

/-! ## Account store (`src/config.rs`) -/

/-- The `Account` struct of `config.rs`. -/
structure Account where
  name : List Char
  username : List Char
  email : List Char
  ssh_key : List Char
  deriving DecidableEq, Repr

/-- The per-line closure inside `load_accounts_from_path`: trim the line,
skip it when blank, split on `'|'`, accept exactly 4 fields (each trimmed),
otherwise emit a diagnostic and skip the line. -/
def parseStoreLine (line : List Char) : Option Account :=
  let t := trim line
  if t.isEmpty then none
  else
    let parts := splitBar t
    if h : parts.length = 4 then
      some ⟨trim parts[0], trim parts[1], trim parts[2], trim parts[3]⟩
    else none

/-- `load_accounts_from_path` applied to file text that was read
successfully: `file_content.lines().filter_map(...)`. -/
def load_accounts_from_content (c : List Char) : List Account :=
  (rustLines c).filterMap parseStoreLine

/-- Result of attempting to read a file, as distinguished by
`load_accounts_from_path`: the file may be absent, reading may fail with an
I/O error, or it yields text. -/
inductive FileRead where
  | absent
  | readError
  | content (data : List Char)
  deriving DecidableEq, Repr

/-- `load_accounts_from_path`: an absent file returns the empty vector, an
`fs::read_to_string` error prints a diagnostic and returns the empty vector,
and successfully read text is parsed line by line. -/
def load_accounts_from_path : FileRead → List Account
  | .absent => []
  | .readError => []
  | .content c => load_accounts_from_content c

/-- The line `save_account_to_path` appends:
`format!("{}|{}|{}|{}\n", name, username, email, ssh_key)`. -/
def account_entry (a : Account) : List Char :=
  a.name ++ '|' :: a.username ++ '|' :: a.email ++ '|' :: a.ssh_key ++ ['\n']

/-- `save_account_to_path` at the content level: open in append mode
(creating an absent file, i.e. starting from `[]`) and write one entry. -/
def save_account_to_content (a : Account) (c : List Char) : List Char :=
  c ++ account_entry a

/-- Appending each account of a sequence, in order, starting from an absent
(empty) store file. -/
def save_accounts_sequence (accounts : List Account) : List Char :=
  accounts.foldl (fun c a => save_account_to_content a c) []

/-- `delete_account_from_path` at the content level: load all records, keep
those whose name differs from the one being deleted, and rewrite the whole
file (truncate + one serialized entry per surviving record). -/
def delete_account_from_content (name_to_delete : List Char) (c : List Char) :
    List Char :=
  (((load_accounts_from_content c).filter
      (fun acc => acc.name ≠ name_to_delete)).map account_entry).flatten

/-- `delete_account_from_path` on a file in any read state: the load step
maps absent / unreadable files to no records, and the truncating rewrite
always leaves the file existing with the serialized survivors. -/
def delete_account_file (name_to_delete : List Char) (fr : FileRead) :
    FileRead :=
  .content ((((load_accounts_from_path fr).filter
      (fun acc => acc.name ≠ name_to_delete)).map account_entry).flatten)

/-! ## SSH config editor (`src/ssh.rs`) -/

/-- `name.replace(' ', "_").to_lowercase()`, the "consistent host alias"
computed by both `update_ssh_config` and `remove_ssh_config_entry`. -/
def hostAliasName (name : List Char) : List Char :=
  (name.map (fun c => if c = ' ' then '_' else c)).map Char.toLower

/-- The five fixed-shape lines of one SSH config block (the §3 block shape,
without the leading blank line). -/
def ssh_block (name identity_file : List Char) : List Char :=
  "# ".data ++ name ++ " GitHub Account\nHost github-".data ++
    hostAliasName name ++
    "\n    HostName github.com\n    User git\n    IdentityFile ".data ++
    identity_file ++ "\n".data

/-- The `config_entry` string formatted by `update_ssh_config`:
`"\n# {} GitHub Account\nHost github-{}\n    HostName github.com\n    User git\n    IdentityFile {}\n"`. -/
def config_entry (name identity_file : List Char) : List Char :=
  "\n# ".data ++ name ++ " GitHub Account\nHost github-".data ++
    hostAliasName name ++
    "\n    HostName github.com\n    User git\n    IdentityFile ".data ++
    identity_file ++ "\n".data

/-- `update_ssh_config` at the content level: the file is opened with
`create(true).append(true)` and the entry is appended (an absent file is the
empty content `[]`). -/
def update_ssh_config_content (name identity_file c : List Char) : List Char :=
  c ++ config_entry name identity_file

/-- The lookahead `lines.peek().is_some_and(|next| next.trim().starts_with(&host_check))`
used by `remove_ssh_config_entry`. -/
def peekHost (host_check : List Char) : List (List Char) → Bool
  | next :: _ => host_check.isPrefixOf (trim next)
  | [] => false

/-- The line-scanning loop of `remove_ssh_config_entry` (lines 121–163 of
`ssh.rs`), returning the list of lines pushed to `new_content`.  When the
current line equals the entry header and the next line starts with the host
check, the header and the following three lines are skipped and `skip_block`
is set; otherwise a kept line is copied.  While `skip_block` is set, a
non-blank non-comment line ends the block (and is copied); a blank or
comment line also clears `skip_block` and is copied unless it is itself a
recognized header (a condition that can only re-test the already-failed
outer test). -/
def removeScan (hd hc : List Char) : List (List Char) → Bool → List (List Char)
  | [], _ => []
  | line :: rest, skip =>
    if trim line = hd ∧ peekHost hc rest then
      match rest with
      | _ :: _ :: _ :: rest3 => removeScan hd hc rest3 true
      | _ => []
    else if !skip then
      line :: removeScan hd hc rest false
    else if ¬(trim line).isEmpty ∧ ¬((trim line).head? = some '#') then
      line :: removeScan hd hc rest false
    else if ¬(trim line = hd ∧ peekHost hc rest) then
      line :: removeScan hd hc rest false
    else
      removeScan hd hc rest false

/-- The loop `while new_content.ends_with("\n\n\n") { new_content.pop(); }`,
expressed on the reversed character list: a trailing run of three or more
newlines is reduced to exactly two, anything else is untouched. -/
def collapseRevNl (s : List Char) : List Char :=
  match s with
  | a :: b :: c :: r =>
    if a = '\n' ∧ b = '\n' ∧ c = '\n' then
      '\n' :: '\n' :: r.dropWhile (fun ch => ch = '\n')
    else s
  | _ => s

/-- Rust `new_content.ends_with("\n\n")`. -/
def endsWithNlNl (s : List Char) : Bool :=
  match s.reverse with
  | a :: b :: _ => a = '\n' && b = '\n'
  | _ => false

/-- The trailing-newline cleanup of `remove_ssh_config_entry` (lines 165–181
of `ssh.rs`): collapse runs of blank lines at the end, pop or clear a
trailing blank line, and clear an all-whitespace result unless the original
single-line-file guard fires. -/
def cleanup_new_content (new_content file_content : List Char) : List Char :=
  let s1 := (collapseRevNl new_content.reverse).reverse
  let s2 :=
    if endsWithNlNl s1 ∧ (trim s1).isEmpty then []
    else if endsWithNlNl s1 then s1.dropLast
    else s1
  if s2 = ['\n'] ∧ 1 < (rustLines file_content).length then s2
  else if (trim s2).isEmpty ∧ ¬(trim file_content).isEmpty then []
  else s2

/-- `remove_ssh_config_entry` at the content level: build the header and
host checks from the account name, scan the lines, join the kept lines with
newlines, and run the trailing-newline cleanup. -/
def remove_ssh_config_entry_content (name file_content : List Char) :
    List Char :=
  let entry_header_check := "# ".data ++ name ++ " GitHub Account".data
  let host_check := "Host github-".data ++ hostAliasName name
  cleanup_new_content
    (unlines (removeScan entry_header_check host_check
      (rustLines file_content) false))
    file_content

/-- `remove_ssh_config_entry` on a file in any read state: an absent file is
a successful no-op, a read error propagates (leaving the file untouched),
and readable text is rewritten with the filtered content. -/
def remove_ssh_config_entry_file (name : List Char) : FileRead → FileRead
  | .absent => .absent
  | .readError => .readError
  | .content c => .content (remove_ssh_config_entry_content name c)

/-- Home-directory expansion of a leading `~/`, as `shellexpand::tilde`
performs for the key paths this program produces (`~/.ssh/...`). -/
def expand_tilde (home p : List Char) : List Char :=
  match p with
  | '~' :: '/' :: rest => home ++ '/' :: rest
  | _ => p

/-- `delete_ssh_key_files`: remove the private key file and its `.pub`
companion from the set of existing files, when present. -/
def delete_ssh_key_files (home identity_file_base : List Char)
    (files : List (List Char)) : List (List Char) :=
  files.filter (fun f =>
    f ≠ expand_tilde home identity_file_base ∧
    f ≠ expand_tilde home identity_file_base ++ ".pub".data)

/-! ## Profile manager (`src/commands.rs`) -/

/-- The lookup inside `use_account`:
`accounts.iter().find(|acc| acc.name == x || acc.username == x)`. -/
def find_account (accounts : List Account) (name_or_username : List Char) :
    Option Account :=
  accounts.find? (fun acc =>
    acc.name == name_or_username || acc.username == name_or_username)

/-- The file-system state touched by `remove_account`: the account store,
the SSH config file, and the set of existing SSH key files. -/
structure SystemState where
  store : FileRead
  sshConfig : FileRead
  keyFiles : List (List Char)
  home : List Char
  deriving DecidableEq, Repr

/-- `remove_account`: look the name up in the loaded store; when found,
delete the record, remove the SSH config block and delete the key files;
when not found, only print a message and change nothing. -/
def remove_account (name : List Char) (w : SystemState) : SystemState :=
  let accounts := load_accounts_from_path w.store
  match accounts.find? (fun acc => acc.name == name) with
  | some account =>
    { w with
        store := delete_account_file name w.store
        sshConfig := remove_ssh_config_entry_file name w.sshConfig
        keyFiles := delete_ssh_key_files w.home account.ssh_key w.keyFiles }
  | none => w

/-! ## Predicates and abbreviations used to state the claims -/

/-- A field value that survives the store's line format: it contains neither
the delimiter nor a newline, and carries no surrounding whitespace (the
loader trims the line and every field). -/
def goodField (f : List Char) : Prop :=
  '|' ∉ f ∧ '\n' ∉ f ∧ trim f = f

instance (f : List Char) : Decidable (goodField f) := by
  unfold goodField; infer_instance

/-- All four fields of an account survive the store's line format. -/
def goodAccount (a : Account) : Prop :=
  goodField a.name ∧ goodField a.username ∧ goodField a.email ∧
    goodField a.ssh_key

instance (a : Account) : Decidable (goodAccount a) := by
  unfold goodAccount; infer_instance

/-- The serialized store line of an account, without its terminating
newline. -/
def store_line (a : Account) : List Char :=
  a.name ++ '|' :: a.username ++ '|' :: a.email ++ '|' :: a.ssh_key

/-! ## Lemmas about the text model -/

theorem splitNl_ne_nil (s : List Char) : splitNl s ≠ [] := by
  cases s with
  | nil => simp [splitNl]
  | cons c rest =>
    simp only [splitNl]
    split
    · simp
    · split <;> simp

theorem splitNl_append (l r : List Char) (h : '\n' ∉ l) :
    splitNl (l ++ '\n' :: r) = l :: splitNl r := by
  induction l with
  | nil =>
    show splitNl ('\n' :: r) = [] :: splitNl r
    simp only [splitNl]
    cases hs : splitNl r with
    | nil => exact absurd hs (splitNl_ne_nil r)
    | cons a as => simp
  | cons c t ih =>
    have hc : c ≠ '\n' := fun e => h (by simp [e])
    have ht : '\n' ∉ t := fun m => h (List.mem_cons_of_mem _ m)
    simp only [List.cons_append, splitNl, List.append_eq]
    rw [ih ht]
    simp [hc]

theorem linesFinish_cons (l : List Char) (ls : List (List Char))
    (h : ls ≠ []) : linesFinish (l :: ls) = stripCR l :: linesFinish ls := by
  cases ls with
  | nil => exact absurd rfl h
  | cons a as => rfl

theorem rustLines_append (l r : List Char) (h : '\n' ∉ l) :
    rustLines (l ++ '\n' :: r) = stripCR l :: rustLines r := by
  unfold rustLines
  rw [splitNl_append l r h, linesFinish_cons _ _ (splitNl_ne_nil r)]

theorem stripCR_eq_self (l : List Char) (h : l.getLast? ≠ some '\r') :
    stripCR l = l := by
  unfold stripCR
  split
  · rename_i c t hr
    rw [if_neg]
    intro e
    exact h (by rw [← List.head?_reverse, hr, e]; rfl)
  · rfl

theorem splitBar_ne_nil (s : List Char) : splitBar s ≠ [] := by
  cases s with
  | nil => simp [splitBar]
  | cons c rest =>
    simp only [splitBar]
    split
    · simp
    · split <;> simp

theorem splitBar_append (l r : List Char) (h : '|' ∉ l) :
    splitBar (l ++ '|' :: r) = l :: splitBar r := by
  induction l with
  | nil =>
    show splitBar ('|' :: r) = [] :: splitBar r
    simp only [splitBar]
    cases hs : splitBar r with
    | nil => exact absurd hs (splitBar_ne_nil r)
    | cons a as => simp
  | cons c t ih =>
    have hc : c ≠ '|' := fun e => h (by simp [e])
    have ht : '|' ∉ t := fun m => h (List.mem_cons_of_mem _ m)
    simp only [List.cons_append, splitBar, List.append_eq]
    rw [ih ht]
    simp [hc]

theorem splitBar_single (l : List Char) (h : '|' ∉ l) : splitBar l = [l] := by
  induction l with
  | nil => rfl
  | cons c t ih =>
    have hc : c ≠ '|' := fun e => h (by simp [e])
    have ht : '|' ∉ t := fun m => h (List.mem_cons_of_mem _ m)
    simp only [splitBar, ih ht]
    simp [hc]

theorem dropWhile_head_false {p : Char → Bool} {l : List Char}
    (h : l.dropWhile p = l) : ∀ c, l.head? = some c → p c = false := by
  intro c hc
  cases l with
  | nil => simp at hc
  | cons a t =>
    have ha : a = c := by simpa using hc
    cases hp : p a with
    | false => rw [← ha]; exact hp
    | true =>
      rw [← ha]
      rw [List.dropWhile_cons_of_pos hp] at h
      have hlen : (t.dropWhile p).length ≤ t.length :=
        (List.dropWhile_suffix p).length_le
      rw [h] at hlen
      simp at hlen

theorem trim_parts {l : List Char} (h : trim l = l) :
    l.dropWhile Char.isWhitespace = l ∧
      l.reverse.dropWhile Char.isWhitespace = l.reverse := by
  have hlen1 : (l.dropWhile Char.isWhitespace).length ≤ l.length :=
    (List.dropWhile_suffix Char.isWhitespace).length_le
  have hlen2 : (trim l).length ≤ (l.dropWhile Char.isWhitespace).length := by
    unfold trim
    simpa using
      (List.dropWhile_suffix (p := Char.isWhitespace)
        (l := (l.dropWhile Char.isWhitespace).reverse)).length_le
  have e := congrArg List.length h
  have hll : l.length ≤ (l.dropWhile Char.isWhitespace).length := by omega
  have hd : l.dropWhile Char.isWhitespace = l :=
    (List.dropWhile_suffix Char.isWhitespace).sublist.eq_of_length_le hll
  refine ⟨hd, ?_⟩
  have h2 : (l.reverse.dropWhile Char.isWhitespace).reverse = l := by
    rw [trim, hd] at h
    exact h
  calc l.reverse.dropWhile Char.isWhitespace
      = ((l.reverse.dropWhile Char.isWhitespace).reverse).reverse := by simp
    _ = l.reverse := by rw [h2]

theorem trim_head_false {l : List Char} (h : trim l = l) :
    ∀ c, l.head? = some c → c.isWhitespace = false :=
  dropWhile_head_false (trim_parts h).1

theorem trim_getLast_false {l : List Char} (h : trim l = l) :
    ∀ c, l.getLast? = some c → c.isWhitespace = false := fun c hc =>
  dropWhile_head_false (trim_parts h).2 c
    (by rw [List.head?_reverse]; exact hc)

theorem trim_eq_self_of_ends {l : List Char}
    (h1 : ∀ c, l.head? = some c → c.isWhitespace = false)
    (h2 : ∀ c, l.getLast? = some c → c.isWhitespace = false) :
    trim l = l := by
  have hd : l.dropWhile Char.isWhitespace = l := by
    cases l with
    | nil => rfl
    | cons a t => exact List.dropWhile_cons_of_neg (by simp [h1 a rfl])
  have hr : l.reverse.dropWhile Char.isWhitespace = l.reverse := by
    cases hrev : l.reverse with
    | nil => rfl
    | cons a t =>
      have ha : l.getLast? = some a := by rw [← List.head?_reverse, hrev]; rfl
      exact List.dropWhile_cons_of_neg (by simp [h2 a ha])
  unfold trim
  rw [hd, hr, List.reverse_reverse]

/-! ## Lemmas about the serialized store format -/

theorem store_line_assoc (a : Account) :
    store_line a =
      (a.name ++ '|' :: a.username ++ '|' :: a.email ++ ['|']) ++ a.ssh_key := by
  simp [store_line, List.append_assoc]

theorem store_line_ne_nil (a : Account) : store_line a ≠ [] := by
  unfold store_line
  cases a.name <;> simp

theorem account_entry_eq (a : Account) :
    account_entry a = store_line a ++ ['\n'] := by
  simp [account_entry, store_line, List.append_assoc]

theorem head?_append_cases {x y : List Char} {c : Char}
    (h : (x ++ y).head? = some c) :
    x.head? = some c ∨ (x = [] ∧ y.head? = some c) := by
  cases x with
  | nil => exact Or.inr ⟨rfl, h⟩
  | cons a t => exact Or.inl h

theorem getLast?_append_cases {x y : List Char} {c : Char}
    (h : (x ++ y).getLast? = some c) :
    y.getLast? = some c ∨ (y = [] ∧ x.getLast? = some c) := by
  rw [List.getLast?_append] at h
  cases hy : y.getLast? with
  | some d =>
    rw [hy] at h
    exact Or.inl (by simpa using h)
  | none =>
    rw [hy] at h
    exact Or.inr ⟨List.getLast?_eq_none_iff.mp hy, by simpa using h⟩

theorem nl_not_mem_store_line (a : Account) (hg : goodAccount a) :
    '\n' ∉ store_line a := by
  obtain ⟨⟨_, h1, _⟩, ⟨_, h2, _⟩, ⟨_, h3, _⟩, ⟨_, h4, _⟩⟩ := hg
  unfold store_line
  simp [List.mem_append, List.mem_cons, h1, h2, h3, h4]

theorem store_line_right (a : Account) :
    store_line a =
      a.name ++
        ('|' :: (a.username ++ ('|' :: (a.email ++ ('|' :: a.ssh_key))))) := by
  simp [store_line, List.append_assoc]

theorem store_line_head_not_ws (a : Account) (hn : trim a.name = a.name) :
    ∀ c, (store_line a).head? = some c → c.isWhitespace = false := by
  intro c hc
  rw [store_line_right] at hc
  rcases head?_append_cases hc with h | ⟨-, h⟩
  · exact trim_head_false hn c h
  · obtain rfl : '|' = c := by simpa using h
    decide

theorem store_line_getLast_not_ws (a : Account)
    (hk : trim a.ssh_key = a.ssh_key) :
    ∀ c, (store_line a).getLast? = some c → c.isWhitespace = false := by
  intro c hc
  rw [store_line_assoc] at hc
  rcases getLast?_append_cases hc with h | ⟨-, h⟩
  · exact trim_getLast_false hk c h
  · have hbar : (a.name ++ '|' :: a.username ++ '|' :: a.email ++
        ['|']).getLast? = some '|' := List.getLast?_concat _
    rw [hbar] at h
    obtain rfl : '|' = c := by simpa using h
    decide

theorem stripCR_store_line (a : Account) (hk : trim a.ssh_key = a.ssh_key) :
    stripCR (store_line a) = store_line a := by
  refine stripCR_eq_self _ ?_
  intro hc
  have := store_line_getLast_not_ws a hk '\r' hc
  exact absurd this (by decide)

theorem parseStoreLine_store_line (a : Account) (hg : goodAccount a) :
    parseStoreLine (store_line a) = some a := by
  obtain ⟨hn, hu, he, hk⟩ := hg
  have htrim : trim (store_line a) = store_line a :=
    trim_eq_self_of_ends (store_line_head_not_ws a hn.2.2)
      (store_line_getLast_not_ws a hk.2.2)
  have hsplit : splitBar (store_line a) =
      [a.name, a.username, a.email, a.ssh_key] := by
    rw [store_line_right]
    rw [splitBar_append _ _ hn.1, splitBar_append _ _ hu.1,
      splitBar_append _ _ he.1, splitBar_single _ hk.1]
  simp only [parseStoreLine, htrim, hsplit]
  rw [if_neg (by simpa [List.isEmpty_iff] using store_line_ne_nil a)]
  simp [hn.2.2, hu.2.2, he.2.2, hk.2.2]

theorem load_flatten (accounts : List Account)
    (hg : ∀ a ∈ accounts, goodAccount a) :
    load_accounts_from_content ((accounts.map account_entry).flatten) =
      accounts := by
  induction accounts with
  | nil => rfl
  | cons a as ih =>
    have hga : goodAccount a := hg a (by simp)
    have hgas : ∀ b ∈ as, goodAccount b := fun b hb => hg b (by simp [hb])
    unfold load_accounts_from_content
    rw [List.map_cons, List.flatten_cons, account_entry_eq, List.append_assoc,
      List.singleton_append]
    rw [rustLines_append _ _ (nl_not_mem_store_line a hga)]
    rw [List.filterMap_cons, stripCR_store_line a hga.2.2.2.2.2,
      parseStoreLine_store_line a hga]
    exact congrArg (a :: ·) (ih hgas)

theorem foldl_save (accounts : List Account) (init : List Char) :
    accounts.foldl (fun c a => save_account_to_content a c) init =
      init ++ (accounts.map account_entry).flatten := by
  induction accounts generalizing init with
  | nil => simp
  | cons a as ih =>
    rw [List.foldl_cons, ih]
    simp [save_account_to_content, List.append_assoc]

theorem save_accounts_sequence_eq (accounts : List Account) :
    save_accounts_sequence accounts = (accounts.map account_entry).flatten := by
  simpa using foldl_save accounts []

/-! ## Claim theorems -/

/-- C3 counterexample: the account ("a ", "u", "e", "k") has pairwise
distinct names (it is alone) and no field contains the delimiter, yet saving
it to an absent store and loading does not return it: the loader trims the
trailing space from the name. -/
theorem c3_roundtrip_counterexample :
    ('|' ∉ "a ".data ∧ '|' ∉ "u".data ∧ '|' ∉ "e".data ∧ '|' ∉ "k".data) ∧
      load_accounts_from_content
          (save_accounts_sequence [⟨"a ".data, "u".data, "e".data, "k".data⟩])
        ≠ [⟨"a ".data, "u".data, "e".data, "k".data⟩] := by
  decide

/-- C3 (amended): for every sequence of accounts with pairwise distinct
names whose fields contain no delimiter and no newline and carry no
surrounding whitespace, appending each account in order to an initially
absent store file and then loading returns exactly the same sequence. -/
theorem c3_store_roundtrip (accounts : List Account)
    (hnames : accounts.Pairwise (fun a b => a.name ≠ b.name))
    (hgood : ∀ a ∈ accounts, goodAccount a) :
    load_accounts_from_content (save_accounts_sequence accounts) =
      accounts := by
  rw [save_accounts_sequence_eq]
  exact load_flatten accounts hgood

/-- Witness for C3: a concrete two-account round trip. -/
theorem c3_store_roundtrip_witness :
    ([⟨"work".data, "workuser".data, "work@example.com".data,
        "~/.ssh/id_rsa_work".data⟩,
      ⟨"personal".data, "p".data, "p@x.io".data, "~/.ssh/id_p".data⟩] :
        List Account).Pairwise (fun a b => a.name ≠ b.name) ∧
    (∀ a ∈ ([⟨"work".data, "workuser".data, "work@example.com".data,
        "~/.ssh/id_rsa_work".data⟩,
      ⟨"personal".data, "p".data, "p@x.io".data, "~/.ssh/id_p".data⟩] :
        List Account), goodAccount a) ∧
    load_accounts_from_content
        (save_accounts_sequence
          [⟨"work".data, "workuser".data, "work@example.com".data,
              "~/.ssh/id_rsa_work".data⟩,
            ⟨"personal".data, "p".data, "p@x.io".data, "~/.ssh/id_p".data⟩]) =
      [⟨"work".data, "workuser".data, "work@example.com".data,
          "~/.ssh/id_rsa_work".data⟩,
        ⟨"personal".data, "p".data, "p@x.io".data, "~/.ssh/id_p".data⟩] :=
  ⟨by decide, by decide, c3_store_roundtrip _ (by decide) (by decide)⟩

/-- C4 counterexample: the store file "bad\n" holds no record named "x"
(its only line is malformed and parses to nothing), yet deleting "x"
rewrites the file to empty — not byte-identical content. -/
theorem c4_delete_counterexample :
    (∀ a ∈ load_accounts_from_content "bad\n".data, a.name ≠ "x".data) ∧
      delete_account_from_content "x".data "bad\n".data ≠ "bad\n".data := by
  decide

/-- C4 (amended): for a store file whose content is the canonical
serialization of well-formed records (delimiter-free, newline-free,
whitespace-trimmed fields), deleting a name carried by no record leaves the
content byte-identical. -/
theorem c4_delete_missing_name (accounts : List Account) (n : List Char)
    (hgood : ∀ a ∈ accounts, goodAccount a)
    (hn : ∀ a ∈ accounts, a.name ≠ n) :
    delete_account_from_content n ((accounts.map account_entry).flatten) =
      (accounts.map account_entry).flatten := by
  unfold delete_account_from_content
  rw [load_flatten accounts hgood,
    List.filter_eq_self.mpr (fun a ha => by simpa using hn a ha)]

/-- Witness for C4: deleting the absent name "z" from a one-record store. -/
theorem c4_delete_missing_name_witness :
    (∀ a ∈ ([⟨"a".data, "u".data, "e".data, "k".data⟩] : List Account),
        goodAccount a) ∧
    (∀ a ∈ ([⟨"a".data, "u".data, "e".data, "k".data⟩] : List Account),
        a.name ≠ "z".data) ∧
    delete_account_from_content "z".data
        ((([⟨"a".data, "u".data, "e".data, "k".data⟩] :
            List Account).map account_entry).flatten) =
      (([⟨"a".data, "u".data, "e".data, "k".data⟩] :
          List Account).map account_entry).flatten :=
  ⟨by decide, by decide, c4_delete_missing_name _ _ (by decide) (by decide)⟩

/-- C5: the loader turns every line that does not split into exactly 4
fields into no record at all (skip, never abort), and the store file with
one 3-field line and two valid 4-field lines loads exactly the two valid
records. -/
theorem c5_malformed_lines_skipped :
    (∀ line : List Char, (splitBar (trim line)).length ≠ 4 →
        parseStoreLine line = none) ∧
      load_accounts_from_content "a|b|c\nn1|u1|e1|k1\nn2|u2|e2|k2\n".data =
        [⟨"n1".data, "u1".data, "e1".data, "k1".data⟩,
          ⟨"n2".data, "u2".data, "e2".data, "k2".data⟩] := by
  constructor
  · intro line h
    simp [parseStoreLine, h]
  · decide

/-- Witness for C5: the 2-field line "x|y" is skipped. -/
theorem c5_malformed_lines_skipped_witness :
    (splitBar (trim "x|y".data)).length ≠ 4 ∧
      parseStoreLine "x|y".data = none :=
  ⟨by decide, c5_malformed_lines_skipped.1 "x|y".data (by decide)⟩

/-- C6 counterexample: with an earlier account whose username is "shared"
and a later account whose name is "shared", the lookup returns the earlier
account — the later name match is not preferred, so selection is not
determined by a name-before-username priority. -/
theorem c6_lookup_counterexample :
    find_account
        [⟨"Alice".data, "shared".data, "a@x.io".data, "ka".data⟩,
          ⟨"shared".data, "Bob".data, "b@x.io".data, "kb".data⟩]
        "shared".data =
      some ⟨"Alice".data, "shared".data, "a@x.io".data, "ka".data⟩ ∧
    (⟨"Alice".data, "shared".data, "a@x.io".data, "ka".data⟩ : Account).name
        ≠ "shared".data ∧
    (⟨"shared".data, "Bob".data, "b@x.io".data, "kb".data⟩ : Account).name
        = "shared".data ∧
    find_account
        [⟨"Alice".data, "shared".data, "a@x.io".data, "ka".data⟩,
          ⟨"shared".data, "Bob".data, "b@x.io".data, "kb".data⟩]
        "shared".data ≠
      some ⟨"shared".data, "Bob".data, "b@x.io".data, "kb".data⟩ := by
  decide

/-- C6 (amended): the lookup is a single pass in iteration order: the first
account whose name or username equals the identifier is selected, so an
earlier match of either kind beats any later account (the name test is
merely evaluated before the username test within each account). -/
theorem c6_first_match_wins (pre post : List Account) (a : Account)
    (x : List Char)
    (hpre : ∀ b ∈ pre, b.name ≠ x ∧ b.username ≠ x)
    (ha : a.name = x ∨ a.username = x) :
    find_account (pre ++ a :: post) x = some a := by
  revert hpre
  unfold find_account
  induction pre with
  | nil =>
    intro _
    rw [List.nil_append]
    refine List.find?_cons_of_pos _ ?_
    rcases ha with h | h <;> simp [h]
  | cons b bs ih =>
    intro hpre
    have hb := hpre b (by simp)
    rw [List.cons_append, List.find?_cons_of_neg _ (by simp [hb.1, hb.2])]
    exact ih (fun b hb => hpre b (by simp [hb]))

/-- Witness for C6: one non-matching account in front, one behind. -/
theorem c6_first_match_wins_witness :
    (∀ b ∈ ([⟨"n0".data, "u0".data, "e0".data, "k0".data⟩] : List Account),
        b.name ≠ "id1".data ∧ b.username ≠ "id1".data) ∧
    ((⟨"n1".data, "id1".data, "e1".data, "k1".data⟩ : Account).name =
        "id1".data ∨
      (⟨"n1".data, "id1".data, "e1".data, "k1".data⟩ : Account).username =
        "id1".data) ∧
    find_account
        ([⟨"n0".data, "u0".data, "e0".data, "k0".data⟩] ++
          ⟨"n1".data, "id1".data, "e1".data, "k1".data⟩ ::
            [⟨"id1".data, "u2".data, "e2".data, "k2".data⟩])
        "id1".data =
      some ⟨"n1".data, "id1".data, "e1".data, "k1".data⟩ :=
  ⟨by decide, by decide,
    c6_first_match_wins _ _ _ _ (by decide) (by decide)⟩

/-- C8: appending the same block twice appends the entry string twice (each
entry starts with a blank line before the block), and the result differs
from appending it once. -/
theorem c8_append_not_idempotent (name identity_file c : List Char) :
    update_ssh_config_content name identity_file
        (update_ssh_config_content name identity_file c) =
      c ++ config_entry name identity_file ++ config_entry name identity_file
      ∧
    config_entry name identity_file = '\n' :: ssh_block name identity_file ∧
    update_ssh_config_content name identity_file
        (update_ssh_config_content name identity_file c) ≠
      update_ssh_config_content name identity_file c := by
  refine ⟨rfl, rfl, ?_⟩
  intro h
  have he : config_entry name identity_file ≠ [] := by
    intro he
    have : ('\n' :: ssh_block name identity_file : List Char) = [] := he
    simp at this
  have hlen := congrArg List.length h
  simp only [update_ssh_config_content, List.length_append] at hlen
  have : (config_entry name identity_file).length = 0 := by omega
  exact he (List.length_eq_zero.mp this)

/-- C9: a store file that exists but cannot be read loads as the empty
sequence, indistinguishable from an absent store file and from an empty
store file. -/
theorem c9_read_error_like_absent :
    load_accounts_from_path .readError = [] ∧
    load_accounts_from_path .readError = load_accounts_from_path .absent ∧
    load_accounts_from_path .readError =
      load_accounts_from_path (.content []) :=
  ⟨rfl, rfl, by decide⟩

/-- C10: when no stored account carries the requested name, `remove_account`
changes nothing: the store file, the SSH config file and the set of key
files are all left exactly as they were. -/
theorem c10_remove_missing_is_noop (n : List Char) (w : SystemState)
    (h : ∀ a ∈ load_accounts_from_path w.store, a.name ≠ n) :
    remove_account n w = w := by
  have hf : (load_accounts_from_path w.store).find?
      (fun acc => acc.name == n) = none := by
    rw [List.find?_eq_none]
    intro a ha
    simpa using h a ha
  simp only [remove_account, hf]

/-- Witness for C10: removing the absent name "z" from a concrete state. -/
theorem c10_remove_missing_is_noop_witness :
    (∀ a ∈ load_accounts_from_path (.content "a|u|e|k\n".data),
        a.name ≠ "z".data) ∧
    remove_account "z".data
        ⟨.content "a|u|e|k\n".data, .content [], [], "/home/u".data⟩ =
      ⟨.content "a|u|e|k\n".data, .content [], [], "/home/u".data⟩ :=
  ⟨by decide, c10_remove_missing_is_noop _ _ (by decide)⟩

set_option maxRecDepth 100000 in
/-- C1: evaluating `remove_ssh_config_entry` on the two-block config built
by two appends.  The scan removes the comment, Host, HostName and User lines
of the "test1" block but — having skipped only three lines after the header —
leaves the block's IdentityFile line in the rewritten file, while "test2"'s
block is intact. -/
theorem c1_identityfile_line_survives :
    remove_ssh_config_entry_content "test1".data
        ("\n# test1 GitHub Account\nHost github-test1\n    HostName github.com\n    User git\n    IdentityFile ~/.ssh/id_rsa_test1\n\n# test2 GitHub Account\nHost github-test2\n    HostName github.com\n    User git\n    IdentityFile ~/.ssh/id_rsa_test2\n".data) =
      "\n    IdentityFile ~/.ssh/id_rsa_test1\n\n# test2 GitHub Account\nHost github-test2\n    HostName github.com\n    User git\n    IdentityFile ~/.ssh/id_rsa_test2\n".data
    ∧
    "    IdentityFile ~/.ssh/id_rsa_test1".data ∈
      rustLines (remove_ssh_config_entry_content "test1".data
        ("\n# test1 GitHub Account\nHost github-test1\n    HostName github.com\n    User git\n    IdentityFile ~/.ssh/id_rsa_test1\n\n# test2 GitHub Account\nHost github-test2\n    HostName github.com\n    User git\n    IdentityFile ~/.ssh/id_rsa_test2\n".data)) :=
  ⟨rfl, by decide⟩

set_option maxRecDepth 100000 in
/-- C2: evaluating the append-then-remove round trip from an absent (empty)
config file: the removal leaves the residue "\n    IdentityFile
~/.ssh/id_alice\n" instead of restoring the empty pre-append content. -/
theorem c2_block_roundtrip_fails :
    remove_ssh_config_entry_content "Alice".data
        (update_ssh_config_content "Alice".data "~/.ssh/id_alice".data []) =
      "\n    IdentityFile ~/.ssh/id_alice\n".data ∧
    remove_ssh_config_entry_content "Alice".data
        (update_ssh_config_content "Alice".data "~/.ssh/id_alice".data []) ≠
      ([] : List Char) :=
  ⟨rfl, by decide⟩

/-! ## Lemmas for the non-matching-removal claim -/

theorem removeScan_cons_keep (hd hc line : List Char)
    (rest : List (List Char)) (h : trim line ≠ hd) :
    removeScan hd hc (line :: rest) false =
      line :: removeScan hd hc rest false := by
  match rest with
  | [] =>
    rw [removeScan.eq_3 _ _ _ _ _ (by intro _ _ _ _ hh; simp at hh),
      if_neg (fun hcon => h hcon.1)]
    rfl
  | [a] =>
    rw [removeScan.eq_3 _ _ _ _ _ (by intro _ _ _ _ hh; simp at hh),
      if_neg (fun hcon => h hcon.1)]
    rfl
  | [a, b] =>
    rw [removeScan.eq_3 _ _ _ _ _ (by intro _ _ _ _ hh; simp at hh),
      if_neg (fun hcon => h hcon.1)]
    rfl
  | a :: b :: c :: r =>
    rw [removeScan.eq_2, if_neg (fun hcon => h hcon.1)]
    rfl

theorem collapseRevNl_cons_of_head (y : List Char)
    (h : y.head? ≠ some '\n') : collapseRevNl ('\n' :: y) = '\n' :: y := by
  cases y with
  | nil => rfl
  | cons b t =>
    cases t with
    | nil => rfl
    | cons c u =>
      have hb : b ≠ '\n' := fun e => h (by rw [e]; rfl)
      simp only [collapseRevNl]
      rw [if_neg (fun hcon => hb hcon.2.1)]

theorem endsWithNlNl_cons_false (y : List Char) (h : y.head? ≠ some '\n')
    (s : List Char) (hs : s.reverse = '\n' :: y) :
    endsWithNlNl s = false := by
  unfold endsWithNlNl
  rw [hs]
  cases y with
  | nil => rfl
  | cons b t =>
    have hb : b ≠ '\n' := fun e => h (by rw [e]; rfl)
    simp [hb]

set_option maxRecDepth 400000 in
/-- C7: removing the name "test2", which matches no block, from a config
file that consists of exactly one block for "test1" (with an arbitrary
single-line identity-file path) succeeds and leaves the content unchanged. -/
theorem c7_remove_nonmatching_noop (p : List Char)
    (hn : '\n' ∉ p) (hr : '\r' ∉ p) :
    remove_ssh_config_entry_content "test2".data
        (ssh_block "test1".data p) = ssh_block "test1".data p := by
  have hline5nl : '\n' ∉ "    IdentityFile ".data ++ p := by
    intro hm
    rcases List.mem_append.mp hm with h | h
    · exact absurd h (by decide)
    · exact hn h
  have h5 : stripCR ("    IdentityFile ".data ++ p) =
      "    IdentityFile ".data ++ p := by
    refine stripCR_eq_self _ (fun hlast => ?_)
    rcases getLast?_append_cases hlast with h | ⟨-, h⟩
    · exact hr (List.mem_of_getLast?_eq_some h)
    · exact absurd h (by decide)
  have hshape : ssh_block "test1".data p =
      "# test1 GitHub Account".data ++ '\n' ::
        ("Host github-test1".data ++ '\n' ::
          ("    HostName github.com".data ++ '\n' ::
            ("    User git".data ++ '\n' ::
              (("    IdentityFile ".data ++ p) ++ '\n' :: [])))) := rfl
  have hlines : rustLines (ssh_block "test1".data p) =
      ["# test1 GitHub Account".data, "Host github-test1".data,
        "    HostName github.com".data, "    User git".data,
        "    IdentityFile ".data ++ p] := by
    rw [hshape, rustLines_append _ _ (by decide),
      rustLines_append _ _ (by decide), rustLines_append _ _ (by decide),
      rustLines_append _ _ (by decide), rustLines_append _ _ hline5nl, h5]
    rw [show stripCR "# test1 GitHub Account".data =
        "# test1 GitHub Account".data from rfl]
    rw [show stripCR "Host github-test1".data =
        "Host github-test1".data from rfl]
    rw [show stripCR "    HostName github.com".data =
        "    HostName github.com".data from rfl]
    rw [show stripCR "    User git".data = "    User git".data from rfl]
    rw [show rustLines ([] : List Char) = [] from rfl]
  have hdw : ("    IdentityFile ".data ++ p).dropWhile Char.isWhitespace =
      "IdentityFile ".data ++ p := rfl
  have h5ne : trim ("    IdentityFile ".data ++ p) ≠
      "# test2 GitHub Account".data := by
    intro he
    have hm : trim ("    IdentityFile ".data ++ p) =
        (("IdentityFile ".data ++ p).reverse.dropWhile
          Char.isWhitespace).reverse := by
      unfold trim
      rw [hdw]
    obtain ⟨u, hu⟩ :=
      List.dropWhile_suffix (l := ("IdentityFile ".data ++ p).reverse)
        Char.isWhitespace
    have hm2 : "IdentityFile ".data ++ p =
        trim ("    IdentityFile ".data ++ p) ++ u.reverse := by
      rw [hm]
      calc "IdentityFile ".data ++ p
          = (("IdentityFile ".data ++ p).reverse).reverse := by
            rw [List.reverse_reverse]
        _ = (u ++ (("IdentityFile ".data ++ p).reverse.dropWhile
              Char.isWhitespace)).reverse := by rw [hu]
        _ = _ := by rw [List.reverse_append]
    rw [he] at hm2
    have h1 : ("IdentityFile ".data ++ p).head? = some 'I' := rfl
    rw [hm2] at h1
    have h2 : ("# test2 GitHub Account".data ++ u.reverse).head? =
        some '#' := rfl
    rw [h1] at h2
    simp at h2
  have hscan : removeScan "# test2 GitHub Account".data
      "Host github-test2".data
      ["# test1 GitHub Account".data, "Host github-test1".data,
        "    HostName github.com".data, "    User git".data,
        "    IdentityFile ".data ++ p] false =
      ["# test1 GitHub Account".data, "Host github-test1".data,
        "    HostName github.com".data, "    User git".data,
        "    IdentityFile ".data ++ p] := by
    rw [removeScan_cons_keep _ _ _ _ (by decide),
      removeScan_cons_keep _ _ _ _ (by decide),
      removeScan_cons_keep _ _ _ _ (by decide),
      removeScan_cons_keep _ _ _ _ (by decide),
      removeScan_cons_keep _ _ _ _ h5ne]
    rfl
  have hun : unlines
      ["# test1 GitHub Account".data, "Host github-test1".data,
        "    HostName github.com".data, "    User git".data,
        "    IdentityFile ".data ++ p] = ssh_block "test1".data p := rfl
  have hrev : (ssh_block "test1".data p).reverse =
      '\n' :: (p.reverse ++
        ("# test1 GitHub Account\nHost github-test1\n    HostName github.com\n    User git\n    IdentityFile ".data).reverse) := by
    rw [show ssh_block "test1".data p =
      ("# test1 GitHub Account\nHost github-test1\n    HostName github.com\n    User git\n    IdentityFile ".data ++ p) ++ ['\n'] from rfl]
    rw [List.reverse_append, List.reverse_append]
    rfl
  have hheady : (p.reverse ++
      ("# test1 GitHub Account\nHost github-test1\n    HostName github.com\n    User git\n    IdentityFile ".data).reverse).head? ≠
      some '\n' := by
    intro hh
    rcases head?_append_cases hh with h | ⟨-, h⟩
    · exact hn (List.mem_reverse.mp
        (List.mem_of_mem_head? (Option.mem_def.mpr h)))
    · exact absurd h (by decide)
  have hcol : collapseRevNl ((ssh_block "test1".data p).reverse) =
      (ssh_block "test1".data p).reverse := by
    rw [hrev]
    exact collapseRevNl_cons_of_head _ hheady
  have hends : endsWithNlNl (ssh_block "test1".data p) = false :=
    endsWithNlNl_cons_false _ hheady _ hrev
  show cleanup_new_content
      (unlines (removeScan "# test2 GitHub Account".data
        "Host github-test2".data
        (rustLines (ssh_block "test1".data p)) false))
      (ssh_block "test1".data p) = ssh_block "test1".data p
  rw [hlines, hscan, hun]
  simp only [cleanup_new_content, hcol, List.reverse_reverse, hends]
  simp

/-- Witness for C7: the one-block config with the concrete path
`~/.ssh/id_rsa_test1`. -/
theorem c7_remove_nonmatching_noop_witness :
    ('\n' ∉ "~/.ssh/id_rsa_test1".data ∧ '\r' ∉ "~/.ssh/id_rsa_test1".data) ∧
      remove_ssh_config_entry_content "test2".data
          (ssh_block "test1".data "~/.ssh/id_rsa_test1".data) =
        ssh_block "test1".data "~/.ssh/id_rsa_test1".data :=
  ⟨by decide,
    c7_remove_nonmatching_noop "~/.ssh/id_rsa_test1".data (by decide)
      (by decide)⟩

end GitSwitch
